import Mathlib

/-!
Verification of the agent-reflection ingestion / dedup / retrieval core.

Shallow embedding of the TypeScript source:
* Twitter bookmark ingestion (manifest-driven dedup upsert with inline
  embeddings) from `src/ingestion/scripts/github-stars-embed.ts`
  (second document: the Twitter/SQLite embed script).
* YouTube saved-video ingestion from `src/unnamed/part_013`.
* Transcript chunking (`chunkSegments`) from `src/unnamed/part_013`.
* Daily aggregate recalculation from `src/unnamed/part_007` /
  `src/convex/activities.ts`.
* Blog-draft status updates from `src/convex/blogDrafts.ts`.
* Semantic search from `src/api/src/server.ts`.
* Embedding backfill selection queries from
  `src/ingestion/scripts/github-stars-embed.ts` (starred repos) and
  `src/unnamed/part_017` (bookmarks).

SQL tables are lists of rows in storage (insertion) order; `SELECT ... WHERE
key = ?` point lookups are `List.find?`; `UPDATE ... WHERE` is a `List.map`;
`ORDER BY` is `List.insertionSort`; `LIMIT` is `List.take`.  Embedding vectors
are opaque: a vector is represented by the provider's output `String` (the
provider is an oracle `List String → Except Unit (List String)`, failure
modelling a thrown provider error).  `randomUUID` is modelled by a fresh-id
counter threaded through the state.
-/

namespace AgentReflection

/-- JS `Array.prototype.join(" ")`: join a list of strings with single spaces. -/
def joinSp : List String → String
  | [] => ""
  | [s] => s
  | s :: rest => s ++ " " ++ joinSp rest

/-- Accumulator loop behind `chunksOf`: `cur` is the (reversed) chunk under
construction and `k` counts how many elements the current chunk still takes. -/
def chunksOfGo (n : Nat) (cur : List α) (k : Nat) : List α → List (List α)
  | [] => if cur.isEmpty then [] else [cur.reverse]
  | a :: rest =>
    match k with
    | 0 => cur.reverse :: chunksOfGo n [a] (n - 1) rest
    | k + 1 => chunksOfGo n (a :: cur) k rest

/-- Slice a list into consecutive chunks of `n` elements (the
`for (let i = 0; i < xs.length; i += n) xs.slice(i, i + n)` batching loop). -/
def chunksOf (n : Nat) (l : List α) : List (List α) :=
  if n = 0 then [] else chunksOfGo n [] n l

theorem chunksOfGo_flatten (n : Nat) (cur : List α) (k : Nat) (l : List α) :
    (chunksOfGo n cur k l).flatten = cur.reverse ++ l := by
  induction l generalizing cur k with
  | nil =>
    by_cases h : cur.isEmpty
    · rw [List.isEmpty_iff] at h
      subst h
      simp [chunksOfGo]
    · have h' : cur.isEmpty = false := by
        cases he : cur.isEmpty
        · rfl
        · exact absurd he h
      simp [chunksOfGo, h']
  | cons a rest ih =>
    cases k with
    | zero => simp [chunksOfGo, ih]
    | succ k => simp [chunksOfGo, ih]

theorem chunksOf_flatten (n : Nat) (hn : n ≠ 0) (l : List α) :
    (chunksOf n l).flatten = l := by
  rw [chunksOf, if_neg hn, chunksOfGo_flatten]
  rfl

/-- `find?` on an appended list keeps the first hit of the left part. -/
theorem find?_append_of_some {p : α → Bool} {l l' : List α} {b : α}
    (h : l.find? p = some b) : (l ++ l').find? p = some b := by
  induction l with
  | nil => simp [List.find?] at h
  | cons a t ih =>
    simp only [List.cons_append, List.find?]
    cases hpa : p a with
    | true => simpa [List.find?, hpa] using h
    | false =>
      rw [List.find?] at h
      simp only [hpa] at h
      exact ih h

/-- `find?` commutes with a `map` that does not change the predicate. -/
theorem find?_map_of_pred_pres (f : α → α) (p : α → Bool)
    (hp : ∀ a, p (f a) = p a) (l : List α) :
    (l.map f).find? p = (l.find? p).map f := by
  induction l with
  | nil => simp
  | cons a t ih =>
    simp only [List.map_cons, List.find?, hp a]
    cases hpa : p a with
    | true => simp
    | false => simpa using ih

/-! ## Twitter bookmark ingestion
Embedded from the Twitter/SQLite ingestion script (the second document inside
`src/ingestion/scripts/github-stars-embed.ts`): manifest, `processFile`'s
embedding loop and upsert transaction, and `main`'s per-file loop. -/

/-- A record of the parsed tweet-export JSON (`TweetRecord`).  `time` is the
parsed epoch value of `new Date(t.time).getTime()`; the interaction counts and
derived text columns (extracted links/repos, topics), pure functions of
`tweetText`, are not needed by any verified claim and are omitted. -/
structure TweetRecord where
  authorName : String
  handle : String
  tweetText : String
  time : Int
  postUrl : String
deriving DecidableEq, Repr

/-- A row of the `bookmarks` table (content and key columns). -/
structure Bookmark where
  id : Nat
  postUrl : String
  authorName : String
  authorHandle : String
  tweetText : String
  timestamp : Int
  batchFile : String
  source : String
deriving DecidableEq, Repr

/-- The SQLite database state touched by the Twitter ingestion:
`bookmarks`, the `bookmark_embeddings` vector table (row `i` holds the vector
of rowid `i`, represented by the provider output string), the
`bookmark_embedding_map` table, and the fresh-id supply standing in for
`randomUUID`. -/
structure Store where
  bookmarks : List Bookmark
  vecStore : List String
  embedMap : List (Nat × Nat)
  nextId : Nat
deriving DecidableEq, Repr

/-- The per-file `inserted` / `upgraded` / `skipped` counters. -/
structure Counts where
  inserted : Nat
  upgraded : Nat
  skipped : Nat
deriving DecidableEq, Repr

/-- `SELECT id, source FROM bookmarks WHERE post_url = ?` (point lookup). -/
def findByUrl (store : List Bookmark) (url : String) : Option Bookmark :=
  store.find? (fun b => b.postUrl == url)

/-- `UPDATE bookmarks SET source = 'both' WHERE id = ?`. -/
def updateSourceBoth (store : List Bookmark) (id : Nat) : List Bookmark :=
  store.map (fun b => if b.id = id then { b with source := "both" } else b)

/-- The `INSERT INTO bookmarks ... VALUES (...)` row built in the insert
branch of `processFile`. -/
def mkBookmark (id : Nat) (t : TweetRecord) (batchFile source : String) :
    Bookmark :=
  { id := id
    postUrl := t.postUrl
    authorName := t.authorName
    authorHandle := t.handle
    tweetText := t.tweetText
    timestamp := t.time
    batchFile := batchFile
    source := source }

/-- JS `String.prototype.trim()`: strip leading and trailing whitespace.
Implemented over the underlying character list so that concrete evaluations
reduce in the kernel. -/
def jsTrim (s : String) : String :=
  ⟨((s.data.dropWhile Char.isWhitespace).reverse.dropWhile
      Char.isWhitespace).reverse⟩

/-- JS `String.prototype.slice(0, n)`: the first `n` characters. -/
def jsSlice (s : String) (n : Nat) : String :=
  ⟨s.data.take n⟩

/-- `(t.tweetText || "").trim().slice(0, 8000) || "[empty]"`: the text sent to
the embedding provider for one tweet. -/
def embedText (s : String) : String :=
  let t := jsSlice (jsTrim s) 8000
  if t = "" then "[empty]" else t

/-- The texts sent to the provider by `processFile`'s embedding loop
(batches of `EMBEDDING_BATCH_SIZE = 100`). -/
def embeddingInputs (tweets : List TweetRecord) : List String :=
  ((chunksOf 100 tweets).map (fun batch =>
    batch.map (fun t => embedText t.tweetText))).flatten

/-- `processFile`'s embedding loop: one provider call per batch of 100,
results concatenated into `allEmbeddings`; a provider failure propagates. -/
def generateAllEmbeddings (provider : List String → Except Unit (List String))
    (tweets : List TweetRecord) : Except Unit (List String) :=
  (chunksOf 100 tweets).foldlM
    (fun acc batch => do
      let embeddings ← provider (batch.map (fun t => embedText t.tweetText))
      pure (acc ++ embeddings))
    []

/-- One iteration of the upsert transaction body of `processFile`: look up the
candidate by `post_url`; upgrade provenance to `'both'`, skip, or insert a new
row together with its embedding vector and mapping row. -/
def processRecord (batchFile source : String) (sc : Store × Counts)
    (te : TweetRecord × String) : Store × Counts :=
  let st := sc.1
  let c := sc.2
  let t := te.1
  match findByUrl st.bookmarks t.postUrl with
  | some existing =>
    if existing.source ≠ source ∧ existing.source ≠ "both" then
      ({ st with bookmarks := updateSourceBoth st.bookmarks existing.id },
       { c with upgraded := c.upgraded + 1 })
    else
      (st, { c with skipped := c.skipped + 1 })
  | none =>
    ({ st with
        bookmarks := st.bookmarks ++ [mkBookmark st.nextId t batchFile source]
        vecStore := st.vecStore ++ [te.2]
        embedMap := st.embedMap ++ [(st.nextId, st.vecStore.length)]
        nextId := st.nextId + 1 },
     { c with inserted := c.inserted + 1 })

/-- The `db.transaction` body of `processFile`: fold the upsert step over the
records paired with their embeddings, starting from zeroed counters. -/
def processFileTx (batchFile source : String) (tweets : List TweetRecord)
    (embeds : List String) (st : Store) : Store × Counts :=
  (tweets.zip embeds).foldl (processRecord batchFile source) (st, ⟨0, 0, 0⟩)

/-- `processFile`: generate all embeddings first (a provider failure throws
before the transaction), then run the all-or-nothing upsert transaction. -/
def processFile (provider : List String → Except Unit (List String))
    (batchFile source : String) (tweets : List TweetRecord) (st : Store) :
    Except Unit (Store × Counts) :=
  match generateAllEmbeddings provider tweets with
  | .error e => .error e
  | .ok allEmbeddings => .ok (processFileTx batchFile source tweets allEmbeddings st)

/-! ### Manifest and the per-file run loop (`main`) -/

/-- A `ProcessedFile` manifest entry. -/
structure ProcessedFile where
  filename : String
  processedAt : Int
  records : Nat
  inserted : Nat
  upgraded : Nat
  skipped : Nat
  source : String
deriving DecidableEq, Repr

/-- The manifest's `files` object: content hash → entry, in insertion order. -/
abbrev Manifest := List (String × ProcessedFile)

/-- `manifest.files[hash]` (JS object property read). -/
def manifestLookup (m : Manifest) (h : String) : Option ProcessedFile :=
  (m.find? (fun kv => kv.1 == h)).map (fun kv => kv.2)

/-- `manifest.files[hash] = entry` (JS object property assignment). -/
def manifestSet (m : Manifest) (h : String) (pf : ProcessedFile) : Manifest :=
  if (m.find? (fun kv => kv.1 == h)).isSome then
    m.map (fun kv => if kv.1 == h then (h, pf) else kv)
  else
    m ++ [(h, pf)]

/-- A discovered source file: path (already reduced to its basename), content
hash, inferred channel, and its parsed records. -/
structure TwitterFile where
  path : String
  hash : String
  source : String
  tweets : List TweetRecord
deriving DecidableEq, Repr

/-- `files.filter((f) => !manifest.files[f.hash])`. -/
def filterUnprocessedFiles (files : List TwitterFile) (m : Manifest) :
    List TwitterFile :=
  files.filter (fun f => (manifestLookup m f.hash).isNone)

/-- End-of-run state of `main`: the manifest on disk, the database, and the
run-total counters. -/
structure RunResult where
  manifest : Manifest
  store : Store
  totalInserted : Nat
  totalUpgraded : Nat
  totalSkipped : Nat
deriving DecidableEq, Repr

/-- The per-file loop of `main`: process each unprocessed file, record its
manifest entry immediately after its transaction commits, and accumulate the
run totals.  An exception aborts the run. -/
def runLoop (provider : List String → Except Unit (List String)) (now : Int)
    (acc : RunResult) : List TwitterFile → Except Unit RunResult
  | [] => .ok acc
  | f :: rest =>
    match processFile provider f.path f.source f.tweets acc.store with
    | .error e => .error e
    | .ok (store', counts) =>
      runLoop provider now
        { manifest := manifestSet acc.manifest f.hash
            { filename := f.path
              processedAt := now
              records := f.tweets.length
              inserted := counts.inserted
              upgraded := counts.upgraded
              skipped := counts.skipped
              source := f.source }
          store := store'
          totalInserted := acc.totalInserted + counts.inserted
          totalUpgraded := acc.totalUpgraded + counts.upgraded
          totalSkipped := acc.totalSkipped + counts.skipped }
        rest

/-- `main`: load the manifest, compute the unprocessed-file set, and run the
per-file loop (the early returns for an empty file set coincide with running
the loop on the empty list). -/
def runIngestion (provider : List String → Except Unit (List String))
    (now : Int) (files : List TwitterFile) (manifest0 : Manifest)
    (store0 : Store) : Except Unit RunResult :=
  runLoop provider now
    { manifest := manifest0
      store := store0
      totalInserted := 0
      totalUpgraded := 0
      totalSkipped := 0 }
    (filterUnprocessedFiles files manifest0)

/-! ## YouTube saved-video ingestion
Embedded from the YouTube ingestion script in `src/unnamed/part_013`
(`processFile`, lines 785–896).  Only the upsert transaction is modelled; the
pre-scan that decides which videos to embed supplies the optional embedding
paired with each record. -/

/-- A parsed record of the YouTube export JSON (`YTVideoFlat`), reduced to the
columns the claims mention. -/
structure YTVideo where
  id : String
  title : String
  description : String
  channel : String
  duration : Int
  url : String
deriving DecidableEq, Repr

/-- A row of the `saved_videos` table.  `createdAt` / `updatedAt` model the
`TEXT DEFAULT CURRENT_TIMESTAMP` columns as the insertion timestamp. -/
structure SavedVideo where
  videoId : String
  url : String
  title : String
  channelName : String
  description : String
  duration : Int
  source : String
  savedAt : String
  createdAt : Int
  updatedAt : Int
deriving DecidableEq, Repr

/-- The database state touched by the YouTube upsert transaction. -/
structure YTStore where
  videos : List SavedVideo
  vecStore : List String
  embedMap : List (String × Nat)
deriving DecidableEq, Repr

/-- `SELECT video_id, source FROM saved_videos WHERE video_id = ?`. -/
def findByVideoId (videos : List SavedVideo) (id : String) :
    Option SavedVideo :=
  videos.find? (fun v => v.videoId == id)

/-- `UPDATE saved_videos SET source = 'both', updated_at = CURRENT_TIMESTAMP
WHERE video_id = ?`. -/
def updateSourceYT (videos : List SavedVideo) (id : String) (now : Int) :
    List SavedVideo :=
  videos.map (fun v =>
    if v.videoId = id then { v with source := "both", updatedAt := now } else v)

/-- The `INSERT INTO saved_videos ... VALUES (...)` row built in the insert
branch of the YouTube `processFile`. -/
def mkSavedVideo (v : YTVideo) (source savedAt : String) (now : Int) :
    SavedVideo :=
  { videoId := v.id
    url := v.url
    title := v.title
    channelName := v.channel
    description := v.description
    duration := v.duration
    source := source
    savedAt := savedAt
    createdAt := now
    updatedAt := now }

/-- One iteration of the YouTube upsert transaction: the optional string in
`ve.2` is `allEmbeddings.get(idx)` (present exactly when the pre-scan chose
to embed this record). -/
def processRecordYT (source savedAt : String) (now : Int)
    (sc : YTStore × Counts) (ve : YTVideo × Option String) :
    YTStore × Counts :=
  let st := sc.1
  let c := sc.2
  let v := ve.1
  match findByVideoId st.videos v.id with
  | some existing =>
    if existing.source ≠ source ∧ existing.source ≠ "both" then
      ({ st with videos := updateSourceYT st.videos v.id now },
       { c with upgraded := c.upgraded + 1 })
    else
      (st, { c with skipped := c.skipped + 1 })
  | none =>
    let st' :=
      match ve.2 with
      | some vec =>
        { st with
            videos := st.videos ++ [mkSavedVideo v source savedAt now]
            vecStore := st.vecStore ++ [vec]
            embedMap := st.embedMap ++ [(v.id, st.vecStore.length)] }
      | none =>
        { st with videos := st.videos ++ [mkSavedVideo v source savedAt now] }
    (st', { c with inserted := c.inserted + 1 })

/-- The YouTube `db.transaction` body: fold the upsert step over the records
paired with their optional embeddings. -/
def processFileYT (source savedAt : String) (now : Int)
    (videos : List (YTVideo × Option String)) (st : YTStore) :
    YTStore × Counts :=
  videos.foldl (processRecordYT source savedAt now) (st, ⟨0, 0, 0⟩)

/-! ## Claim C1: dedup upsert branch behaviour -/

/-- Example tweet for concrete evaluations. -/
def exTweet : TweetRecord :=
  { authorName := "ann"
    handle := "ann_h"
    tweetText := "hello world"
    time := 50
    postUrl := "https://x.com/p/1" }

/-- Example bookmark row: `exTweet` previously inserted under `"bookmark"`. -/
def exBookmark : Bookmark := mkBookmark 0 exTweet "f0.json" "bookmark"

/-- Example Twitter store holding `exBookmark` with its embedding. -/
def exStoreC1 : Store :=
  { bookmarks := [exBookmark]
    vecStore := ["vec0"]
    embedMap := [(0, 0)]
    nextId := 1 }

/-- Example YouTube export record. -/
def exYTVideo : YTVideo :=
  { id := "vid1"
    title := "a talk"
    description := "about systems"
    channel := "chan"
    duration := 60
    url := "https://youtube.com/watch?v=vid1" }

/-- `exYTVideo` previously inserted under channel `"liked"` at time 0. -/
def exSavedVideo : SavedVideo := mkSavedVideo exYTVideo "liked" "2025-01-01" 0

/-- Example YouTube store holding `exSavedVideo`. -/
def exYTStore : YTStore :=
  { videos := [exSavedVideo], vecStore := [], embedMap := [] }

/-- C1 counterexample: in the saved-videos pipeline, upgrading provenance is
not a provenance-only write — the committed row also has its `updated_at`
column refreshed to the upgrade time, so it differs from the row obtained by
updating the provenance field alone. -/
theorem upsert_touches_updated_at :
    (processFileYT "watch_later" "2025-01-02" 5 [(exYTVideo, none)]
        exYTStore).1.videos =
      [{ exSavedVideo with source := "both", updatedAt := 5 }] ∧
    ({ exSavedVideo with source := "both", updatedAt := 5 }) ≠
      ({ exSavedVideo with source := "both" }) := by
  constructor
  · rfl
  · decide

/-- C1 (amended): for every candidate record processed by the dedup upsert
under a source channel: if no entity with the natural key exists, a new row is
inserted with provenance equal to that channel (together with its embedding
vector and mapping row) and `inserted` is incremented; if an entity exists
whose provenance differs from the channel and is not `'both'`, its provenance
is updated to `'both'` — and, in the saved-videos pipeline only, its
`updated_at` timestamp is refreshed — with no other field touched, and
`upgraded` is incremented; if the existing provenance equals the channel or is
already `'both'`, no write occurs and `skipped` is incremented. -/
theorem upsert_branch_behavior (bf src : String) (st : Store) (c : Counts)
    (te : TweetRecord × String) (srcY savedAt : String) (now : Int)
    (sty : YTStore) (cy : Counts) (ve : YTVideo × Option String) :
    (findByUrl st.bookmarks te.1.postUrl = none →
      processRecord bf src (st, c) te =
        ({ st with
            bookmarks := st.bookmarks ++ [mkBookmark st.nextId te.1 bf src]
            vecStore := st.vecStore ++ [te.2]
            embedMap := st.embedMap ++ [(st.nextId, st.vecStore.length)]
            nextId := st.nextId + 1 },
         { c with inserted := c.inserted + 1 }) ∧
      (mkBookmark st.nextId te.1 bf src).source = src) ∧
    (∀ b, findByUrl st.bookmarks te.1.postUrl = some b →
      b.source ≠ src → b.source ≠ "both" →
      (processRecord bf src (st, c) te).2 =
        { c with upgraded := c.upgraded + 1 } ∧
      (processRecord bf src (st, c) te).1.vecStore = st.vecStore ∧
      (processRecord bf src (st, c) te).1.embedMap = st.embedMap ∧
      (processRecord bf src (st, c) te).1.nextId = st.nextId ∧
      ∀ i : Nat, (processRecord bf src (st, c) te).1.bookmarks[i]? =
        (st.bookmarks[i]?).map (fun old =>
          if old.id = b.id then { old with source := "both" } else old)) ∧
    (∀ b, findByUrl st.bookmarks te.1.postUrl = some b →
      b.source = src ∨ b.source = "both" →
      processRecord bf src (st, c) te =
        (st, { c with skipped := c.skipped + 1 })) ∧
    (∀ v, findByVideoId sty.videos ve.1.id = some v →
      v.source ≠ srcY → v.source ≠ "both" →
      (processRecordYT srcY savedAt now (sty, cy) ve).2 =
        { cy with upgraded := cy.upgraded + 1 } ∧
      (processRecordYT srcY savedAt now (sty, cy) ve).1.vecStore =
        sty.vecStore ∧
      (processRecordYT srcY savedAt now (sty, cy) ve).1.embedMap =
        sty.embedMap ∧
      ∀ i : Nat, (processRecordYT srcY savedAt now (sty, cy) ve).1.videos[i]? =
        (sty.videos[i]?).map (fun old =>
          if old.videoId = ve.1.id then
            { old with source := "both", updatedAt := now }
          else old)) := by
  refine ⟨fun hnone => ?_, fun b hb hs hboth => ?_, fun b hb hsk => ?_,
    fun v hv hs hboth => ?_⟩
  · rw [processRecord]
    simp only [hnone]
    exact ⟨True.intro, rfl⟩
  · rw [processRecord]
    simp only [hb]
    rw [if_pos ⟨hs, hboth⟩]
    refine ⟨rfl, rfl, rfl, rfl, fun i => ?_⟩
    simp [updateSourceBoth, List.getElem?_map]
  · rw [processRecord]
    simp only [hb]
    rw [if_neg]
    simp only [not_and, not_not]
    intro h1
    rcases hsk with h | h
    · exact absurd h h1
    · exact h
  · rw [processRecordYT]
    simp only [hv]
    rw [if_pos ⟨hs, hboth⟩]
    refine ⟨rfl, rfl, rfl, fun i => ?_⟩
    simp [updateSourceYT, List.getElem?_map]

/-- C1 witness: the upgrade branch at a concrete input — `exTweet` already
stored under `"bookmark"` arrives from the `"like"` channel; only the `source`
column of its row changes and `upgraded` is incremented. -/
theorem upsert_branch_behavior_witness :
    (findByUrl exStoreC1.bookmarks exTweet.postUrl = some exBookmark ∧
      exBookmark.source ≠ "like" ∧ exBookmark.source ≠ "both") ∧
    ((processRecord "f1.json" "like" (exStoreC1, ⟨0, 0, 0⟩)
        (exTweet, "vec1")).2 =
      { (⟨0, 0, 0⟩ : Counts) with upgraded := 0 + 1 } ∧
    (processRecord "f1.json" "like" (exStoreC1, ⟨0, 0, 0⟩)
        (exTweet, "vec1")).1.vecStore = exStoreC1.vecStore ∧
    (processRecord "f1.json" "like" (exStoreC1, ⟨0, 0, 0⟩)
        (exTweet, "vec1")).1.embedMap = exStoreC1.embedMap ∧
    (processRecord "f1.json" "like" (exStoreC1, ⟨0, 0, 0⟩)
        (exTweet, "vec1")).1.nextId = exStoreC1.nextId ∧
    ∀ i : Nat, (processRecord "f1.json" "like" (exStoreC1, ⟨0, 0, 0⟩)
        (exTweet, "vec1")).1.bookmarks[i]? =
      (exStoreC1.bookmarks[i]?).map (fun old =>
        if old.id = exBookmark.id then { old with source := "both" }
        else old)) :=
  ⟨⟨by decide, by decide, by decide⟩,
    (upsert_branch_behavior "f1.json" "like" exStoreC1 ⟨0, 0, 0⟩
      (exTweet, "vec1") "liked" "2025-01-01" 0 exYTStore ⟨0, 0, 0⟩
      (exYTVideo, none)).2.1 exBookmark (by decide) (by decide) (by decide)⟩

/-! ## Claim C2: provenance monotonicity -/

/-- The provenance transitions the spec allows for one stored entity:
unchanged, or single channel → merged sentinel `"both"`. -/
def provOk (old new : String) : Prop :=
  new = old ∨ (new = "both" ∧ old ≠ "both")

theorem provOk_refl (s : String) : provOk s s := Or.inl rfl

theorem provOk_trans {a b c : String} (h1 : provOk a b) (h2 : provOk b c) :
    provOk a c := by
  rcases h1 with h1 | ⟨h1, h1'⟩
  · rcases h2 with h2 | ⟨h2, h2'⟩
    · exact Or.inl (h2.trans h1)
    · subst h1
      exact Or.inr ⟨h2, h2'⟩
  · rcases h2 with h2 | ⟨h2, h2'⟩
    · subst h2
      exact Or.inr ⟨h1, h1'⟩
    · subst h1
      exact absurd rfl h2'

/-- One upsert step never moves a stored bookmark's provenance except
single-channel → `"both"`; its `id` is preserved. -/
theorem processRecord_provOk (bf src : String) (sc : Store × Counts)
    (te : TweetRecord × String) (url : String) (b : Bookmark)
    (hb : findByUrl sc.1.bookmarks url = some b) :
    ∃ b', findByUrl (processRecord bf src sc te).1.bookmarks url = some b' ∧
      b'.id = b.id ∧ provOk b.source b'.source := by
  rw [processRecord]
  cases h : findByUrl sc.1.bookmarks te.1.postUrl with
  | none =>
    refine ⟨b, ?_, rfl, provOk_refl b.source⟩
    exact find?_append_of_some hb
  | some existing =>
    by_cases hcond : existing.source ≠ src ∧ existing.source ≠ "both"
    · simp only [if_pos hcond]
      set f : Bookmark → Bookmark := fun x =>
        if x.id = existing.id then { x with source := "both" } else x with hf
      have hp : ∀ x : Bookmark, ((f x).postUrl == url) = (x.postUrl == url) := by
        intro x
        rw [hf]
        by_cases hx : x.id = existing.id
        · simp [hx]
        · simp [hx]
      refine ⟨f b, ?_, ?_, ?_⟩
      · show (sc.1.bookmarks.map f).find? (fun x => x.postUrl == url) = some (f b)
        have hb' : sc.1.bookmarks.find? (fun x => x.postUrl == url) = some b := hb
        rw [find?_map_of_pred_pres f _ hp, hb']
        rfl
      · rw [hf]
        by_cases hx : b.id = existing.id
        · simp [hx]
        · simp [hx]
      · rw [hf]
        by_cases hx : b.id = existing.id
        · simp only [hx, if_pos]
          by_cases hs : b.source = "both"
          · exact Or.inl hs.symm
          · exact Or.inr ⟨rfl, hs⟩
        · simp only [hx, if_neg, if_false]
          exact provOk_refl b.source
    · simp only [if_neg hcond]
      exact ⟨b, hb, rfl, provOk_refl b.source⟩

/-- `processRecord_provOk`, folded over a record list. -/
theorem foldl_processRecord_provOk (bf src : String)
    (l : List (TweetRecord × String)) (sc : Store × Counts) (url : String)
    (b : Bookmark) (hb : findByUrl sc.1.bookmarks url = some b) :
    ∃ b', findByUrl (l.foldl (processRecord bf src) sc).1.bookmarks url =
        some b' ∧ b'.id = b.id ∧ provOk b.source b'.source := by
  induction l generalizing sc b with
  | nil => exact ⟨b, hb, rfl, provOk_refl b.source⟩
  | cons te rest ih =>
    obtain ⟨b1, hb1, hid1, hp1⟩ := processRecord_provOk bf src sc te url b hb
    obtain ⟨b2, hb2, hid2, hp2⟩ := ih (processRecord bf src sc te) b1 hb1
    exact ⟨b2, hb2, hid2.trans hid1, provOk_trans hp1 hp2⟩

/-- Inversion of a successful `processFile`: the committed store is a
transaction fold over some embedding list. -/
theorem processFile_ok_inv {provider : List String → Except Unit (List String)}
    {bf src : String} {tweets : List TweetRecord} {st : Store}
    {out : Store × Counts}
    (h : processFile provider bf src tweets st = .ok out) :
    ∃ embeds, out = processFileTx bf src tweets embeds st := by
  rw [processFile] at h
  cases hg : generateAllEmbeddings provider tweets with
  | error e =>
    rw [hg] at h
    exact absurd h (by simp)
  | ok embeds =>
    rw [hg] at h
    exact ⟨embeds, (Except.ok.inj h).symm⟩

/-- `processRecord_provOk` lifted through the per-file run loop. -/
theorem runLoop_provOk (provider : List String → Except Unit (List String))
    (now : Int) (files : List TwitterFile) (acc : RunResult) (r : RunResult)
    (h : runLoop provider now acc files = .ok r) (url : String) (b : Bookmark)
    (hb : findByUrl acc.store.bookmarks url = some b) :
    ∃ b', findByUrl r.store.bookmarks url = some b' ∧ b'.id = b.id ∧
      provOk b.source b'.source := by
  induction files generalizing acc b with
  | nil =>
    rw [runLoop] at h
    cases Except.ok.inj h
    exact ⟨b, hb, rfl, provOk_refl b.source⟩
  | cons f rest ih =>
    rw [runLoop] at h
    cases hpf : processFile provider f.path f.source f.tweets acc.store with
    | error e =>
      rw [hpf] at h
      exact absurd h (by simp)
    | ok out =>
      obtain ⟨store', counts⟩ := out
      rw [hpf] at h
      obtain ⟨embeds, hout⟩ := processFile_ok_inv hpf
      obtain ⟨b1, hb1, hid1, hp1⟩ :=
        foldl_processRecord_provOk f.path f.source (f.tweets.zip embeds)
          (acc.store, ⟨0, 0, 0⟩) url b hb
      rw [← processFileTx] at hb1
      have hst : store' = (processFileTx f.path f.source f.tweets embeds
          acc.store).1 := by
        rw [← hout]
      rw [← hst] at hb1
      obtain ⟨b2, hb2, hid2, hp2⟩ := ih _ h b1 hb1
      exact ⟨b2, hb2, hid2.trans hid1, provOk_trans hp1 hp2⟩

/-- One YouTube upsert step never moves a stored video's provenance except
single-channel → `"both"`. -/
theorem processRecordYT_provOk (src savedAt : String) (now : Int)
    (sc : YTStore × Counts) (ve : YTVideo × Option String) (url : String)
    (v : SavedVideo) (hv : findByVideoId sc.1.videos url = some v) :
    ∃ v', findByVideoId (processRecordYT src savedAt now sc ve).1.videos url =
      some v' ∧ provOk v.source v'.source := by
  rw [processRecordYT]
  cases h : findByVideoId sc.1.videos ve.1.id with
  | none =>
    cases hvec : ve.2 with
    | some vec =>
      simp only [hvec]
      exact ⟨v, find?_append_of_some hv, provOk_refl v.source⟩
    | none =>
      simp only [hvec]
      exact ⟨v, find?_append_of_some hv, provOk_refl v.source⟩
  | some existing =>
    by_cases hcond : existing.source ≠ src ∧ existing.source ≠ "both"
    · simp only [if_pos hcond]
      set f : SavedVideo → SavedVideo := fun x =>
        if x.videoId = ve.1.id then { x with source := "both", updatedAt := now }
        else x with hf
      have hp : ∀ x : SavedVideo, ((f x).videoId == url) = (x.videoId == url) := by
        intro x
        rw [hf]
        by_cases hx : x.videoId = ve.1.id
        · simp [hx]
        · simp [hx]
      refine ⟨f v, ?_, ?_⟩
      · show (sc.1.videos.map f).find? (fun x => x.videoId == url) = some (f v)
        have hv' : sc.1.videos.find? (fun x => x.videoId == url) = some v := hv
        rw [find?_map_of_pred_pres f _ hp, hv']
        rfl
      · rw [hf]
        by_cases hx : v.videoId = ve.1.id
        · simp only [hx, if_pos]
          by_cases hs : v.source = "both"
          · exact Or.inl hs.symm
          · exact Or.inr ⟨rfl, hs⟩
        · simp only [hx, if_neg, if_false]
          exact provOk_refl v.source
    · simp only [if_neg hcond]
      exact ⟨v, hv, provOk_refl v.source⟩

/-- `processRecordYT_provOk`, folded over a whole YouTube file. -/
theorem processFileYT_provOk (src savedAt : String) (now : Int)
    (videos : List (YTVideo × Option String)) (sc : YTStore × Counts)
    (url : String) (v : SavedVideo) (hv : findByVideoId sc.1.videos url = some v) :
    ∃ v', findByVideoId
        (videos.foldl (processRecordYT src savedAt now) sc).1.videos url =
      some v' ∧ provOk v.source v'.source := by
  induction videos generalizing sc v with
  | nil => exact ⟨v, hv, provOk_refl v.source⟩
  | cons ve rest ih =>
    obtain ⟨v1, hv1, hp1⟩ := processRecordYT_provOk src savedAt now sc ve url v hv
    obtain ⟨v2, hv2, hp2⟩ := ih (processRecordYT src savedAt now sc ve) v1 hv1
    exact ⟨v2, hv2, provOk_trans hp1 hp2⟩

/-- C2: across any ingestion run (and, `provOk` being transitive, any sequence
of runs), a stored entity's provenance only ever transitions from a single
channel to the merged sentinel `"both"`: never from `"both"` back to a single
channel, and never from one single channel directly to a different single
channel.  Holds for the Twitter pipeline (whole run) and the YouTube pipeline
(whole file transaction). -/
theorem provenance_monotone :
    (∀ (provider : List String → Except Unit (List String)) (now : Int)
      (files : List TwitterFile) (manifest0 : Manifest) (store0 : Store)
      (r : RunResult), runIngestion provider now files manifest0 store0 = .ok r →
      ∀ url b, findByUrl store0.bookmarks url = some b →
      ∃ b', findByUrl r.store.bookmarks url = some b' ∧ b'.id = b.id ∧
        provOk b.source b'.source) ∧
    (∀ (src savedAt : String) (now : Int)
      (videos : List (YTVideo × Option String)) (sty : YTStore) (url : String)
      (v : SavedVideo), findByVideoId sty.videos url = some v →
      ∃ v', findByVideoId (processFileYT src savedAt now videos sty).1.videos
          url = some v' ∧ provOk v.source v'.source) ∧
    (∀ a b c : String, provOk a b → provOk b c → provOk a c) := by
  refine ⟨?_, ?_, fun a b c => provOk_trans⟩
  · intro provider now files manifest0 store0 r hr url b hb
    exact runLoop_provOk provider now (filterUnprocessedFiles files manifest0)
      _ r hr url b hb
  · intro src savedAt now videos sty url v hv
    exact processFileYT_provOk src savedAt now videos (sty, ⟨0, 0, 0⟩) url v hv

/-- Provider oracle that embeds every text successfully (identity vectors). -/
def okProvider : List String → Except Unit (List String) :=
  fun texts => .ok texts

/-- Provider oracle whose call always fails (thrown provider error). -/
def failProvider : List String → Except Unit (List String) :=
  fun _ => .error ()

/-- The empty Twitter database. -/
def emptyStore : Store :=
  { bookmarks := [], vecStore := [], embedMap := [], nextId := 0 }

/-- Example discovered file: `exTweet` arriving from the `"like"` channel. -/
def exFileC2 : TwitterFile :=
  { path := "f1.json", hash := "h1", source := "like", tweets := [exTweet] }

/-- The run result of ingesting `exFileC2` over `exStoreC1` at time 9. -/
def exRunC2 : RunResult :=
  { manifest := [("h1",
      { filename := "f1.json", processedAt := 9, records := 1, inserted := 0,
        upgraded := 1, skipped := 0, source := "like" })]
    store :=
      { bookmarks := [{ exBookmark with source := "both" }]
        vecStore := ["vec0"]
        embedMap := [(0, 0)]
        nextId := 1 }
    totalInserted := 0
    totalUpgraded := 1
    totalSkipped := 0 }

/-- C2 witness: a concrete run upgrading `exBookmark` from `"bookmark"` to
`"both"`; the stored entity's provenance transition satisfies `provOk`. -/
theorem provenance_monotone_witness :
    (runIngestion okProvider 9 [exFileC2] [] exStoreC1 = Except.ok exRunC2 ∧
      findByUrl exStoreC1.bookmarks "https://x.com/p/1" = some exBookmark) ∧
    (∃ b', findByUrl exRunC2.store.bookmarks "https://x.com/p/1" = some b' ∧
      b'.id = exBookmark.id ∧ provOk exBookmark.source b'.source) :=
  ⟨⟨by rfl, by decide⟩,
    provenance_monotone.1 okProvider 9 [exFileC2] [] exStoreC1 exRunC2
      (by rfl) "https://x.com/p/1" exBookmark (by decide)⟩

/-! ## Claim C10: empty-text placeholder -/

/-- C10: the text sent to the embedding provider for a record is its trimmed,
8000-character-capped content, with the literal `"[empty]"` substituted when
that is empty — so the provider never receives an empty string — and a newly
inserted record always gets its vector row and mapping row in the same
transaction step. -/
theorem empty_text_placeholder :
    (∀ tweets : List TweetRecord,
      embeddingInputs tweets = tweets.map (fun t => embedText t.tweetText)) ∧
    (∀ tweets : List TweetRecord, ∀ x ∈ embeddingInputs tweets, x ≠ "") ∧
    (∀ s : String, jsTrim s = "" → embedText s = "[empty]") ∧
    (∀ (bf src : String) (sc : Store × Counts) (te : TweetRecord × String),
      findByUrl sc.1.bookmarks te.1.postUrl = none →
      (processRecord bf src sc te).1.bookmarks =
        sc.1.bookmarks ++ [mkBookmark sc.1.nextId te.1 bf src] ∧
      (processRecord bf src sc te).1.vecStore = sc.1.vecStore ++ [te.2] ∧
      (processRecord bf src sc te).1.embedMap =
        sc.1.embedMap ++ [(sc.1.nextId, sc.1.vecStore.length)]) := by
  have hinputs : ∀ tweets : List TweetRecord,
      embeddingInputs tweets = tweets.map (fun t => embedText t.tweetText) := by
    intro tweets
    rw [embeddingInputs, ← List.map_flatten, chunksOf_flatten 100 (by decide)]
  have hne : ∀ s : String, embedText s ≠ "" := by
    intro s
    rw [embedText]
    by_cases h : jsSlice (jsTrim s) 8000 = ""
    · simp only [h, if_pos]
      decide
    · simp only [h, if_neg, if_false]
      exact h
  refine ⟨hinputs, ?_, ?_, ?_⟩
  · intro tweets x hx
    rw [hinputs] at hx
    obtain ⟨t, _, ht⟩ := List.mem_map.mp hx
    exact ht ▸ hne t.tweetText
  · intro s hs
    rw [embedText, hs]
    have h0 : jsSlice "" 8000 = "" := by decide
    simp only [h0, if_pos]
  · intro bf src sc te hnone
    rw [processRecord]
    simp only [hnone]
    refine ⟨?_, ?_, ?_⟩ <;> exact True.intro

/-- Whitespace-only tweet used by the C10 witness. -/
def exEmptyTweet : TweetRecord :=
  { authorName := "bea"
    handle := "bea_h"
    tweetText := "   "
    time := 1
    postUrl := "https://x.com/p/9" }

/-- C10 witness: a whitespace-only tweet gets `"[empty]"` as its provider
input and, inserted into an empty store, receives a vector row and a mapping
row. -/
theorem empty_text_placeholder_witness :
    ((jsTrim "   " = "" ∧ embedText "   " = "[empty]") ∧
      embeddingInputs [exEmptyTweet] = [exEmptyTweet].map
        (fun t => embedText t.tweetText)) ∧
    (findByUrl emptyStore.bookmarks exEmptyTweet.postUrl = none ∧
      (processRecord "f9.json" "bookmark" (emptyStore, ⟨0, 0, 0⟩)
        (exEmptyTweet, "[empty]")).1.vecStore =
          emptyStore.vecStore ++ ["[empty]"] ∧
      (processRecord "f9.json" "bookmark" (emptyStore, ⟨0, 0, 0⟩)
        (exEmptyTweet, "[empty]")).1.embedMap =
          emptyStore.embedMap ++
            [(emptyStore.nextId, emptyStore.vecStore.length)]) :=
  ⟨⟨⟨by decide, empty_text_placeholder.2.2.1 "   " (by decide)⟩,
      empty_text_placeholder.1 [exEmptyTweet]⟩,
    ⟨by decide,
      (empty_text_placeholder.2.2.2 "f9.json" "bookmark"
        (emptyStore, ⟨0, 0, 0⟩) (exEmptyTweet, "[empty]") (by decide)).2.1,
      (empty_text_placeholder.2.2.2 "f9.json" "bookmark"
        (emptyStore, ⟨0, 0, 0⟩) (exEmptyTweet, "[empty]") (by decide)).2.2⟩⟩

/-! ## Claim C4: embedding failure semantics -/

/-- C4 counterexample: with a failing embedding provider, processing a file of
one new record throws before the upsert transaction — the result is the
propagated error and no entity row is committed (there is no post-state at
all), contradicting "entity rows are still committed without embeddings". -/
theorem embed_failure_no_rows :
    processFile failProvider "f1.json" "bookmark" [exTweet] emptyStore =
      Except.error () := by
  rfl

/-- One upsert step adds exactly one vector row and one mapping row per
insert, and none on upgrade/skip. -/
theorem processRecord_embed_growth (bf src : String) (sc : Store × Counts)
    (te : TweetRecord × String) :
    (processRecord bf src sc te).1.embedMap.length + sc.2.inserted =
      sc.1.embedMap.length + (processRecord bf src sc te).2.inserted ∧
    (processRecord bf src sc te).1.vecStore.length + sc.2.inserted =
      sc.1.vecStore.length + (processRecord bf src sc te).2.inserted := by
  cases h : findByUrl sc.1.bookmarks te.1.postUrl with
  | none =>
    rw [processRecord]
    simp only [h, List.length_append, List.length_cons, List.length_nil]
    omega
  | some existing =>
    rw [processRecord]
    simp only [h]
    by_cases hcond : existing.source ≠ src ∧ existing.source ≠ "both"
    · simp only [if_pos hcond]
      exact ⟨True.intro, True.intro⟩
    · simp only [if_neg hcond]
      exact ⟨True.intro, True.intro⟩

/-- `processRecord_embed_growth` folded over a record list. -/
theorem foldl_processRecord_embed_growth (bf src : String)
    (l : List (TweetRecord × String)) (sc : Store × Counts) :
    (l.foldl (processRecord bf src) sc).1.embedMap.length + sc.2.inserted =
      sc.1.embedMap.length + (l.foldl (processRecord bf src) sc).2.inserted ∧
    (l.foldl (processRecord bf src) sc).1.vecStore.length + sc.2.inserted =
      sc.1.vecStore.length + (l.foldl (processRecord bf src) sc).2.inserted := by
  induction l generalizing sc with
  | nil => exact ⟨rfl, rfl⟩
  | cons te rest ih =>
    obtain ⟨h1, h2⟩ := processRecord_embed_growth bf src sc te
    obtain ⟨h3, h4⟩ := ih (processRecord bf src sc te)
    rw [List.foldl_cons]
    omega

/-- C4 (amended): if embedding generation fails while ingesting a source
file, the whole file's processing aborts before the upsert transaction runs:
no entity rows are committed for that file; and on the successful path,
entity rows are only ever committed together with their embeddings (each
insert adds exactly one vector row and one mapping row). -/
theorem embed_failure_aborts_file :
    (∀ (provider : List String → Except Unit (List String))
      (bf src : String) (tweets : List TweetRecord) (st : Store),
      generateAllEmbeddings provider tweets = .error () →
      processFile provider bf src tweets st = .error ()) ∧
    (∀ (provider : List String → Except Unit (List String))
      (bf src : String) (tweets : List TweetRecord) (st : Store)
      (out : Store × Counts),
      processFile provider bf src tweets st = .ok out →
      out.1.embedMap.length = st.embedMap.length + out.2.inserted ∧
      out.1.vecStore.length = st.vecStore.length + out.2.inserted) := by
  constructor
  · intro provider bf src tweets st hg
    rw [processFile, hg]
  · intro provider bf src tweets st out hok
    obtain ⟨embeds, hout⟩ := processFile_ok_inv hok
    obtain ⟨h1, h2⟩ := foldl_processRecord_embed_growth bf src
      (tweets.zip embeds) (st, ⟨0, 0, 0⟩)
    dsimp only at h1 h2
    rw [hout, processFileTx]
    constructor
    · omega
    · omega

/-- C4 witness: the failing provider aborts the concrete one-record file with
no committed rows. -/
theorem embed_failure_aborts_file_witness :
    (generateAllEmbeddings failProvider [exTweet] = Except.error ()) ∧
    processFile failProvider "f2.json" "bookmark" [exTweet] emptyStore =
      Except.error () :=
  ⟨by rfl,
    embed_failure_aborts_file.1 failProvider "f2.json" "bookmark" [exTweet]
      emptyStore (by rfl)⟩

/-! ## Claim C3: manifest idempotence (second pass is a no-op) -/

/-- `find?` on an appended list falls through to the right part when the left
part has no hit. -/
theorem find?_append_none {p : α → Bool} {l l' : List α}
    (h : l.find? p = none) : (l ++ l').find? p = l'.find? p := by
  induction l with
  | nil => rfl
  | cons a t ih =>
    rw [List.find?] at h
    cases hpa : p a with
    | true =>
      rw [hpa] at h
      exact absurd h (by simp)
    | false =>
      rw [hpa] at h
      simp only [List.cons_append, List.find?, hpa]
      exact ih h

theorem manifestLookup_manifestSet_self (m : Manifest) (h : String)
    (pf : ProcessedFile) : manifestLookup (manifestSet m h pf) h = some pf := by
  rw [manifestLookup, manifestSet]
  by_cases hs : (m.find? (fun kv => kv.1 == h)).isSome
  · rw [if_pos hs]
    set g : String × ProcessedFile → String × ProcessedFile := fun kv =>
      if kv.1 == h then (h, pf) else kv with hg
    have hp : ∀ kv : String × ProcessedFile,
        ((g kv).1 == h) = (kv.1 == h) := by
      intro kv
      rw [hg]
      by_cases hkv : kv.1 == h
      · simp [hkv]
      · simp [hkv]
    rw [find?_map_of_pred_pres g _ hp]
    obtain ⟨kv0, hkv0⟩ := Option.isSome_iff_exists.mp hs
    have hpkv0 : (kv0.1 == h) = true := by
      have hh := List.find?_some hkv0
      simpa using hh
    rw [hkv0]
    simp only [Option.map_map, Option.map]
    rw [hg]
    simp [hpkv0]
  · rw [if_neg hs]
    have hnone : m.find? (fun kv => kv.1 == h) = none :=
      Option.not_isSome_iff_eq_none.mp hs
    rw [find?_append_none hnone]
    simp [List.find?]

theorem manifestLookup_manifestSet_isSome (m : Manifest) (h h' : String)
    (pf : ProcessedFile) (hs : (manifestLookup m h).isSome) :
    (manifestLookup (manifestSet m h' pf) h).isSome := by
  by_cases hh : h' = h
  · subst hh
    rw [manifestLookup_manifestSet_self]
    rfl
  · rw [manifestLookup] at hs ⊢
    rw [manifestSet]
    by_cases hs' : (m.find? (fun kv => kv.1 == h')).isSome
    · rw [if_pos hs']
      set g : String × ProcessedFile → String × ProcessedFile := fun kv =>
        if kv.1 == h' then (h', pf) else kv with hg
      have hp : ∀ kv : String × ProcessedFile,
          ((g kv).1 == h) = (kv.1 == h) := by
        intro kv
        rw [hg]
        by_cases hkv : kv.1 == h'
        · have : kv.1 = h' := by
            exact eq_of_beq hkv
          simp [hkv, this]
        · simp [hkv]
      have hfind : ∃ kv, m.find? (fun kv => kv.1 == h) = some kv := by
        cases hf : m.find? (fun kv => kv.1 == h) with
        | none =>
          rw [hf] at hs
          exact absurd hs (by simp)
        | some kv => exact ⟨kv, rfl⟩
      obtain ⟨kv, hkv⟩ := hfind
      rw [find?_map_of_pred_pres g _ hp, hkv]
      rfl
    · rw [if_neg hs']
      have hfind : ∃ kv, m.find? (fun kv => kv.1 == h) = some kv := by
        cases hf : m.find? (fun kv => kv.1 == h) with
        | none =>
          rw [hf] at hs
          exact absurd hs (by simp)
        | some kv => exact ⟨kv, rfl⟩
      obtain ⟨kv0, hkv0⟩ := hfind
      rw [find?_append_of_some hkv0]
      rfl

/-- Through a successful run loop, existing manifest entries survive and every
processed file's hash ends up in the manifest. -/
theorem runLoop_manifest (provider : List String → Except Unit (List String))
    (now : Int) (files : List TwitterFile) (acc r : RunResult)
    (h : runLoop provider now acc files = .ok r) :
    (∀ hsh, (manifestLookup acc.manifest hsh).isSome →
      (manifestLookup r.manifest hsh).isSome) ∧
    (∀ f ∈ files, (manifestLookup r.manifest f.hash).isSome) := by
  induction files generalizing acc with
  | nil =>
    rw [runLoop] at h
    cases Except.ok.inj h
    exact ⟨fun _ hs => hs, by simp⟩
  | cons f rest ih =>
    rw [runLoop] at h
    cases hpf : processFile provider f.path f.source f.tweets acc.store with
    | error e =>
      rw [hpf] at h
      exact absurd h (by simp)
    | ok out =>
      obtain ⟨store', counts⟩ := out
      rw [hpf] at h
      obtain ⟨mono, alldone⟩ := ih _ h
      refine ⟨?_, ?_⟩
      · intro hsh hs
        exact mono hsh (manifestLookup_manifestSet_isSome _ hsh f.hash _ hs)
      · intro g hg
        rcases List.mem_cons.mp hg with hg | hg
        · subst hg
          apply mono
          rw [manifestLookup_manifestSet_self]
          rfl
        · exact alldone g hg

/-- C3: running the same ingestion pass a second time over an unchanged set of
source files performs zero additional inserts and zero additional upgrades:
after a completed pass every file's content hash is in the manifest, the
second pass's unprocessed-file set is empty, and the second run returns with
the manifest and store untouched and all counters zero — regardless of the
(never-consulted) embedding provider. -/
theorem second_pass_noop
    (provider provider2 : List String → Except Unit (List String))
    (now now2 : Int) (files : List TwitterFile) (manifest0 : Manifest)
    (store0 : Store) (r1 : RunResult)
    (h1 : runIngestion provider now files manifest0 store0 = .ok r1) :
    filterUnprocessedFiles files r1.manifest = [] ∧
    runIngestion provider2 now2 files r1.manifest r1.store =
      .ok { manifest := r1.manifest, store := r1.store, totalInserted := 0,
            totalUpgraded := 0, totalSkipped := 0 } := by
  obtain ⟨mono, alldone⟩ := runLoop_manifest provider now
    (filterUnprocessedFiles files manifest0) _ r1 h1
  have hall : ∀ f ∈ files, (manifestLookup r1.manifest f.hash).isSome := by
    intro f hf
    by_cases hp : (manifestLookup manifest0 f.hash).isSome
    · exact mono f.hash hp
    · apply alldone
      rw [filterUnprocessedFiles, List.mem_filter]
      refine ⟨hf, ?_⟩
      rw [Option.not_isSome_iff_eq_none] at hp
      rw [hp]
      rfl
  have hfil : filterUnprocessedFiles files r1.manifest = [] := by
    rw [filterUnprocessedFiles, List.filter_eq_nil_iff]
    intro f hf
    have hs := hall f hf
    cases ho : manifestLookup r1.manifest f.hash with
    | none =>
      rw [ho] at hs
      exact absurd hs (by simp)
    | some pf =>
      simp
  refine ⟨hfil, ?_⟩
  rw [runIngestion, hfil]
  rfl

/-- Example discovered file for the C3 witness. -/
def exFileC3 : TwitterFile :=
  { path := "f3.json", hash := "h3", source := "bookmark", tweets := [exTweet] }

/-- The run result of ingesting `exFileC3` into an empty store at time 7. -/
def exRunC3 : RunResult :=
  { manifest := [("h3",
      { filename := "f3.json", processedAt := 7, records := 1, inserted := 1,
        upgraded := 0, skipped := 0, source := "bookmark" })]
    store :=
      { bookmarks := [mkBookmark 0 exTweet "f3.json" "bookmark"]
        vecStore := ["hello world"]
        embedMap := [(0, 0)]
        nextId := 1 }
    totalInserted := 1
    totalUpgraded := 0
    totalSkipped := 0 }

/-- C3 witness: after a concrete first pass inserts `exTweet`, a second pass
over the same file finds nothing unprocessed and changes nothing. -/
theorem second_pass_noop_witness :
    (runIngestion okProvider 7 [exFileC3] [] emptyStore = Except.ok exRunC3) ∧
    (filterUnprocessedFiles [exFileC3] exRunC3.manifest = [] ∧
      runIngestion okProvider 8 [exFileC3] exRunC3.manifest exRunC3.store =
        .ok { manifest := exRunC3.manifest, store := exRunC3.store,
              totalInserted := 0, totalUpgraded := 0, totalSkipped := 0 }) :=
  ⟨by rfl,
    second_pass_noop okProvider okProvider 7 8 [exFileC3] [] emptyStore
      exRunC3 (by rfl)⟩

/-! ## Claim C7: transcript chunking coverage
Embedded from `chunkSegments` in `src/unnamed/part_013` (lines 508–539). -/

/-- A caption triple produced by the VTT parser. -/
structure TranscriptSegment where
  startSeconds : Int
  endSeconds : Int
  text : String
deriving DecidableEq, Repr

/-- The body of the `for (const seg of segments)` loop of `chunkSegments`,
carrying the `currentChunk` accumulator; the trailing
`if (currentChunk.text) chunks.push(currentChunk)` is the base case. -/
def chunkLoop (chunkSizeSeconds : Int) (cur : TranscriptSegment) :
    List TranscriptSegment → List TranscriptSegment
  | [] => if cur.text = "" then [] else [cur]
  | seg :: rest =>
    if chunkSizeSeconds ≤ seg.startSeconds - cur.startSeconds then
      (if cur.text = "" then [] else [cur]) ++
        chunkLoop chunkSizeSeconds
          ⟨seg.startSeconds, seg.endSeconds, seg.text⟩ rest
    else
      chunkLoop chunkSizeSeconds
        { cur with
            endSeconds := seg.endSeconds
            text := cur.text ++ (if cur.text = "" then "" else " ") ++ seg.text }
        rest

/-- `chunkSegments(segments, chunkSizeSeconds)`: merge consecutive captions
into windows, starting a new window once a caption starts at least
`chunkSizeSeconds` after the current window's start. -/
def chunkSegments (segments : List TranscriptSegment)
    (chunkSizeSeconds : Int) : List TranscriptSegment :=
  match segments with
  | [] => []
  | s0 :: _ =>
    chunkLoop chunkSizeSeconds ⟨s0.startSeconds, s0.endSeconds, ""⟩ segments

/-- Specification-side grouping mirror of `chunkLoop`: the windows as lists of
whole captions instead of concatenated texts. -/
def chunkGroups (chunkSizeSeconds startS : Int)
    (gAcc : List TranscriptSegment) :
    List TranscriptSegment → List (List TranscriptSegment)
  | [] => if gAcc.isEmpty then [] else [gAcc]
  | seg :: rest =>
    if chunkSizeSeconds ≤ seg.startSeconds - startS then
      (if gAcc.isEmpty then [] else [gAcc]) ++
        chunkGroups chunkSizeSeconds seg.startSeconds [seg] rest
    else
      chunkGroups chunkSizeSeconds startS (gAcc ++ [seg]) rest

theorem string_append_ne_empty_left (x y : String) (hx : x ≠ "") :
    x ++ y ≠ "" := by
  intro h
  apply hx
  have hd := congrArg String.data h
  rw [String.data_append] at hd
  exact String.ext (List.append_eq_nil.mp hd).1

theorem joinSp_cons_ne {x : String} (l : List String) (hx : x ≠ "") :
    joinSp (x :: l) ≠ "" := by
  cases l with
  | nil => exact hx
  | cons y m =>
    show x ++ " " ++ joinSp (y :: m) ≠ ""
    rw [String.append_assoc]
    exact string_append_ne_empty_left x _ hx

theorem joinSp_cons_cons (a b : String) (l : List String) :
    joinSp (a :: b :: l) = a ++ " " ++ joinSp (b :: l) := rfl

theorem joinSp_glue (a b : String) (l : List String) :
    joinSp ((a ++ " " ++ b) :: l) = joinSp (a :: b :: l) := by
  cases l with
  | nil => rfl
  | cons c m =>
    simp only [joinSp_cons_cons, String.append_assoc]

theorem joinSp_append_singleton (l : List String) (x : String) (hl : l ≠ []) :
    joinSp (l ++ [x]) = joinSp l ++ " " ++ x := by
  induction l with
  | nil => exact absurd rfl hl
  | cons a m ih =>
    cases m with
    | nil => rfl
    | cons b m' =>
      rw [List.cons_append, List.cons_append, joinSp_cons_cons,
        ← List.cons_append, ih (by simp), joinSp_cons_cons]
      simp only [String.append_assoc]

theorem joinSp_append (l1 l2 : List String) (h1 : l1 ≠ []) (h2 : l2 ≠ []) :
    joinSp (l1 ++ l2) = joinSp l1 ++ " " ++ joinSp l2 := by
  induction l1 with
  | nil => exact absurd rfl h1
  | cons x xs ih =>
    cases xs with
    | nil =>
      cases l2 with
      | nil => exact absurd rfl h2
      | cons y m => rfl
    | cons x' xs' =>
      rw [List.cons_append, List.cons_append, joinSp_cons_cons,
        ← List.cons_append, ih (by simp), joinSp_cons_cons]
      simp only [String.append_assoc]

/-- Texts of the loop output match the joins of the grouping mirror's groups,
as long as the accumulated text is the join of the accumulated group. -/
theorem chunkLoop_texts (sz : Int) (segs : List TranscriptSegment) :
    ∀ (cur : TranscriptSegment) (gAcc : List TranscriptSegment),
    (∀ s ∈ segs, s.text ≠ "") → (∀ s ∈ gAcc, s.text ≠ "") →
    cur.text = joinSp (gAcc.map TranscriptSegment.text) →
    (chunkLoop sz cur segs).map TranscriptSegment.text =
      (chunkGroups sz cur.startSeconds gAcc segs).map
        (fun g => joinSp (g.map TranscriptSegment.text)) := by
  induction segs with
  | nil =>
    intro cur gAcc _ hg hcur
    cases gAcc with
    | nil =>
      rw [chunkLoop, chunkGroups]
      simp only [List.map_nil] at hcur
      rw [joinSp] at hcur
      simp [hcur]
    | cons a t =>
      rw [List.map_cons] at hcur
      have hne : cur.text ≠ "" := by
        rw [hcur]
        exact joinSp_cons_ne _ (hg a (by simp))
      rw [chunkLoop, chunkGroups, if_neg hne,
        if_neg (by simp : ¬ ((a :: t).isEmpty = true))]
      simp only [List.map_cons, List.map_nil]
      rw [hcur]
  | cons seg rest ih =>
    intro cur gAcc hsegs hg hcur
    have hsegtext : seg.text ≠ "" := hsegs seg (by simp)
    have hrest : ∀ s ∈ rest, s.text ≠ "" := fun s hs => hsegs s (by simp [hs])
    by_cases hb : sz ≤ seg.startSeconds - cur.startSeconds
    · have hrec := ih ⟨seg.startSeconds, seg.endSeconds, seg.text⟩ [seg] hrest
        (by simpa using hsegtext) (by rw [List.map_cons, List.map_nil]; rfl)
      cases gAcc with
      | nil =>
        have hcur0 : cur.text = "" := by
          simpa [joinSp] using hcur
        rw [chunkLoop, chunkGroups, if_pos hb, if_pos hb, if_pos hcur0,
          if_pos (by simp : ([] : List TranscriptSegment).isEmpty = true)]
        rw [List.nil_append, List.nil_append]
        exact hrec
      | cons a t =>
        rw [List.map_cons] at hcur
        have hne : cur.text ≠ "" := by
          rw [hcur]
          exact joinSp_cons_ne _ (hg a (by simp))
        rw [chunkLoop, chunkGroups, if_pos hb, if_pos hb, if_neg hne,
          if_neg (by simp : ¬ ((a :: t).isEmpty = true))]
        simp only [List.map_append, List.map_cons, List.map_nil,
          List.singleton_append]
        rw [hcur]
        exact congrArg (fun l => joinSp (a.text ::
          List.map TranscriptSegment.text t) :: l) hrec
    · have hstart : (TranscriptSegment.mk cur.startSeconds seg.endSeconds
          (cur.text ++ (if cur.text = "" then "" else " ") ++
            seg.text)).startSeconds = cur.startSeconds := rfl
      cases gAcc with
      | nil =>
        have hcur0 : cur.text = "" := by
          simpa [joinSp] using hcur
        have hrec := ih
          { cur with
              endSeconds := seg.endSeconds
              text := cur.text ++ (if cur.text = "" then "" else " ") ++
                seg.text }
          [seg] hrest (by simpa using hsegtext) ?_
        · rw [chunkLoop, chunkGroups]
          simp only [if_neg hb]
          simpa using hrec
        · show cur.text ++ _ ++ seg.text = _
          rw [hcur0, if_pos rfl, String.empty_append, String.empty_append]
          rfl
      | cons a t =>
        rw [List.map_cons] at hcur
        have hne : cur.text ≠ "" := by
          rw [hcur]
          exact joinSp_cons_ne _ (hg a (by simp))
        have hgacc : ∀ s ∈ (a :: t) ++ [seg], s.text ≠ "" := by
          intro s hs
          rcases List.mem_append.mp hs with hs | hs
          · exact hg s hs
          · simp only [List.mem_singleton] at hs
            subst hs
            exact hsegtext
        have hrec := ih
          { cur with
              endSeconds := seg.endSeconds
              text := cur.text ++ (if cur.text = "" then "" else " ") ++
                seg.text }
          ((a :: t) ++ [seg]) hrest hgacc ?_
        · rw [chunkLoop, chunkGroups]
          simp only [if_neg hb]
          simpa using hrec
        · show cur.text ++ _ ++ seg.text = _
          rw [if_neg hne]
          simp only [List.map_append, List.map_cons, List.map_nil]
          rw [joinSp_append_singleton _ seg.text (by simp), ← hcur]


theorem chunkGroups_flatten (sz : Int) (segs : List TranscriptSegment) :
    ∀ (startS : Int) (gAcc : List TranscriptSegment),
    (chunkGroups sz startS gAcc segs).flatten = gAcc ++ segs := by
  induction segs with
  | nil =>
    intro startS gAcc
    cases gAcc with
    | nil => rfl
    | cons a t =>
      rw [chunkGroups]
      simp
  | cons seg rest ih =>
    intro startS gAcc
    rw [chunkGroups]
    by_cases hb : sz ≤ seg.startSeconds - startS
    · rw [if_pos hb]
      cases gAcc with
      | nil => simpa using ih seg.startSeconds [seg]
      | cons a t =>
        simp only [List.isEmpty_cons, if_neg, if_false, List.flatten_append,
          List.flatten_cons, List.flatten_nil, List.append_nil]
        rw [ih seg.startSeconds [seg]]
        simp
    · rw [if_neg hb, ih startS (gAcc ++ [seg])]
      simp

theorem chunkGroups_nonempty (sz : Int) (segs : List TranscriptSegment) :
    ∀ (startS : Int) (gAcc : List TranscriptSegment) (g : List TranscriptSegment),
    g ∈ chunkGroups sz startS gAcc segs → g ≠ [] := by
  induction segs with
  | nil =>
    intro startS gAcc g hsg
    rw [chunkGroups] at hsg
    cases gAcc with
    | nil => simp at hsg
    | cons a t =>
      rw [if_neg (by simp : ¬ ((a :: t).isEmpty = true))] at hsg
      simp only [List.mem_singleton] at hsg
      subst hsg
      simp
  | cons seg rest ih =>
    intro startS gAcc g hsg
    rw [chunkGroups] at hsg
    by_cases hb : sz ≤ seg.startSeconds - startS
    · rw [if_pos hb] at hsg
      rcases List.mem_append.mp hsg with hsg | hsg
      · cases gAcc with
        | nil => simp at hsg
        | cons a t =>
          rw [if_neg (by simp : ¬ ((a :: t).isEmpty = true))] at hsg
          simp only [List.mem_singleton] at hsg
          subst hsg
          simp
      · exact ih seg.startSeconds [seg] g hsg
    · rw [if_neg hb] at hsg
      exact ih startS (gAcc ++ [seg]) g hsg

theorem flatten_ne_nil_of_head (g : List α) (rest : List (List α))
    (hg : g ≠ []) : (g :: rest).flatten ≠ [] := by
  rw [List.flatten_cons]
  intro h
  exact hg (List.append_eq_nil.mp h).1

/-- Concatenating the per-group joins equals the join over the flattened
groups (all groups nonempty). -/
theorem joinSp_map_flatten (gs : List (List TranscriptSegment))
    (hne : ∀ g ∈ gs, g ≠ []) :
    joinSp (gs.map (fun g => joinSp (g.map TranscriptSegment.text))) =
      joinSp (gs.flatten.map TranscriptSegment.text) := by
  induction gs with
  | nil => rfl
  | cons g rest ih =>
    have hgne : g ≠ [] := hne g (by simp)
    have hrestne : ∀ g' ∈ rest, g' ≠ [] := fun g' hg' => hne g' (by simp [hg'])
    cases rest with
    | nil => simp [joinSp]
    | cons g2 rest2 =>
      have hg2ne : g2 ≠ [] := hrestne g2 (by simp)
      have hflat : (g2 :: rest2).flatten ≠ [] :=
        flatten_ne_nil_of_head g2 rest2 hg2ne
      have hmapg : g.map TranscriptSegment.text ≠ [] := by
        intro h
        exact hgne (List.map_eq_nil_iff.mp h)
      have hmapflat :
          ((g2 :: rest2).flatten).map TranscriptSegment.text ≠ [] := by
        intro h
        exact hflat (List.map_eq_nil_iff.mp h)
      have h1 : (g :: g2 :: rest2).map
            (fun g => joinSp (g.map TranscriptSegment.text)) =
          [joinSp (g.map TranscriptSegment.text)] ++
            (g2 :: rest2).map
              (fun g => joinSp (g.map TranscriptSegment.text)) := by
        simp
      rw [h1, joinSp_append _ _ (by simp) (by simp), ih hrestne]
      conv_rhs => rw [List.flatten_cons, List.map_append]
      rw [joinSp_append _ _ hmapg hmapflat]
      rfl

/-- C7: for every parsed caption list (captions have nonempty text, as the
VTT parser only flushes nonempty accumulators) and every positive chunk size,
the chunker partitions the captions into consecutive nonempty groups — never
splitting a caption — each window's text is the space-join of its group's
caption texts, and the space-join of all window texts equals the space-join of
all caption texts: nothing dropped, nothing duplicated. -/
theorem chunking_coverage (segments : List TranscriptSegment)
    (chunkSizeSeconds : Int) (hpos : 0 < chunkSizeSeconds)
    (hne : ∀ s ∈ segments, s.text ≠ "") :
    ∃ groups : List (List TranscriptSegment),
      groups.flatten = segments ∧
      (∀ g ∈ groups, g ≠ []) ∧
      (chunkSegments segments chunkSizeSeconds).map TranscriptSegment.text =
        groups.map (fun g => joinSp (g.map TranscriptSegment.text)) ∧
      joinSp ((chunkSegments segments chunkSizeSeconds).map
          TranscriptSegment.text) =
        joinSp (segments.map TranscriptSegment.text) := by
  cases hseg : segments with
  | nil => exact ⟨[], rfl, by simp, rfl, rfl⟩
  | cons s0 rest =>
    subst hseg
    refine ⟨chunkGroups chunkSizeSeconds s0.startSeconds [] (s0 :: rest),
      ?_, ?_, ?_, ?_⟩
    · rw [chunkGroups_flatten]
      rfl
    · exact chunkGroups_nonempty chunkSizeSeconds (s0 :: rest)
        s0.startSeconds []
    · rw [chunkSegments]
      exact chunkLoop_texts chunkSizeSeconds (s0 :: rest)
        ⟨s0.startSeconds, s0.endSeconds, ""⟩ [] hne (by simp) rfl
    · rw [chunkSegments]
      rw [chunkLoop_texts chunkSizeSeconds (s0 :: rest)
        ⟨s0.startSeconds, s0.endSeconds, ""⟩ [] hne (by simp) rfl]
      rw [joinSp_map_flatten _ (chunkGroups_nonempty chunkSizeSeconds
        (s0 :: rest) s0.startSeconds [])]
      rw [chunkGroups_flatten]
      rfl

/-- C7 witness: the spec's own scenario — captions 0–5s "hello" and 5–12s
"world" with chunk size 10 merge into the single window text "hello world",
whose join equals the full transcript join. -/
theorem chunking_coverage_witness :
    ((0 : Int) < 10 ∧
      ∀ s ∈ [TranscriptSegment.mk 0 5 "hello", TranscriptSegment.mk 5 12 "world"],
        TranscriptSegment.text s ≠ "") ∧
    ∃ groups : List (List TranscriptSegment),
      groups.flatten =
        [TranscriptSegment.mk 0 5 "hello", TranscriptSegment.mk 5 12 "world"] ∧
      (∀ g ∈ groups, g ≠ []) ∧
      (chunkSegments
          [TranscriptSegment.mk 0 5 "hello", TranscriptSegment.mk 5 12 "world"]
          10).map TranscriptSegment.text =
        groups.map (fun g => joinSp (g.map TranscriptSegment.text)) ∧
      joinSp ((chunkSegments
          [TranscriptSegment.mk 0 5 "hello", TranscriptSegment.mk 5 12 "world"]
          10).map TranscriptSegment.text) =
        joinSp ([TranscriptSegment.mk 0 5 "hello",
          TranscriptSegment.mk 5 12 "world"].map TranscriptSegment.text) :=
  ⟨⟨by decide, by decide⟩,
    chunking_coverage
      [TranscriptSegment.mk 0 5 "hello", TranscriptSegment.mk 5 12 "world"]
      10 (by decide) (by decide)⟩

/-! ## Claim C8: daily aggregate recalculation
Embedded from `recalculateDay` in `src/unnamed/part_007` (the same
recomputation body runs in `batchInsert` of `src/convex/activities.ts`). -/

/-- A raw activity row. -/
structure Activity where
  type : String
  timestamp : Int
  date : String
  source : String
  sourceId : String
  isPublic : Bool
deriving DecidableEq, Repr

/-- A `dayActivities` row. -/
structure DayAggregate where
  date : String
  level : Nat
  sessions : Nat
  commits : Nat
  issuesClosed : Nat
  prsMerged : Nat
  estimatedMinutes : Nat
deriving DecidableEq, Repr

/-- The recomputation body of `recalculateDay`: counts per kind over the
date's raw rows, the fixed 1/5/10/20 level thresholds, and the
30-min-per-session + 5-min-per-commit effort estimate. -/
def computeDayData (activities : List Activity) (date : String) :
    DayAggregate :=
  let dayActs := activities.filter (fun a => a.date == date)
  let sessions := (dayActs.filter (fun a => a.source == "cass")).length
  let commits := (dayActs.filter (fun a => a.type == "commit")).length
  let issuesClosed :=
    (dayActs.filter (fun a => a.type == "issue_closed")).length
  let prsMerged := (dayActs.filter (fun a => a.type == "pr_merged")).length
  let totalActivity := sessions + commits + issuesClosed + prsMerged
  let level : Nat :=
    if 20 ≤ totalActivity then 4
    else if 10 ≤ totalActivity then 3
    else if 5 ≤ totalActivity then 2
    else if 1 ≤ totalActivity then 1
    else 0
  { date := date
    level := level
    sessions := sessions
    commits := commits
    issuesClosed := issuesClosed
    prsMerged := prsMerged
    estimatedMinutes := sessions * 30 + commits * 5 }

/-- `ctx.db.patch(existing._id, data)`: replace the first row whose date
matches (the `by_date` index's `first()`). -/
def patchFirstDay (store : List DayAggregate) (date : String)
    (data : DayAggregate) : List DayAggregate :=
  match store with
  | [] => []
  | d :: rest =>
    if d.date == date then data :: rest
    else d :: patchFirstDay rest date data

/-- The `recalculateDay` mutation: recompute the date's aggregate from the raw
rows and write it as a full replace (patch the existing row or insert). -/
def recalculateDay (activities : List Activity) (date : String)
    (dayStore : List DayAggregate) : List DayAggregate :=
  let data := computeDayData activities date
  if (dayStore.find? (fun d => d.date == date)).isSome then
    patchFirstDay dayStore date data
  else
    dayStore ++ [data]

theorem patchFirstDay_idem (date : String) (data : DayAggregate)
    (hdata : (data.date == date) = true) (l : List DayAggregate) :
    patchFirstDay (patchFirstDay l date data) date data =
      patchFirstDay l date data := by
  induction l with
  | nil => rfl
  | cons d rest ih =>
    rw [patchFirstDay]
    by_cases hd : (d.date == date) = true
    · rw [if_pos hd, patchFirstDay, if_pos hdata]
    · rw [if_neg hd, patchFirstDay, if_neg hd, ih]

theorem find?_patchFirstDay_isSome (date : String) (data : DayAggregate)
    (hdata : (data.date == date) = true) (l : List DayAggregate)
    (hl : (l.find? (fun d => d.date == date)).isSome) :
    ((patchFirstDay l date data).find? (fun d => d.date == date)).isSome := by
  induction l with
  | nil => exact absurd hl (by simp [List.find?])
  | cons d rest ih =>
    rw [patchFirstDay]
    by_cases hd : (d.date == date) = true
    · rw [if_pos hd]
      simp [List.find?, hdata]
    · rw [if_neg hd]
      rw [List.find?] at hl
      cases hpd : (d.date == date) with
      | true => exact absurd hpd hd
      | false =>
        rw [hpd] at hl
        have := ih hl
        simp [List.find?, hpd, this]

theorem patchFirstDay_append_no_match (date : String) (data : DayAggregate)
    (hdata : (data.date == date) = true) (l : List DayAggregate)
    (hl : l.find? (fun d => d.date == date) = none) :
    patchFirstDay (l ++ [data]) date data = l ++ [data] := by
  induction l with
  | nil =>
    rw [List.nil_append, patchFirstDay, if_pos hdata]
  | cons d rest ih =>
    rw [List.find?] at hl
    cases hpd : (d.date == date) with
    | true =>
      rw [hpd] at hl
      exact absurd hl (by simp)
    | false =>
      rw [hpd] at hl
      rw [List.cons_append, patchFirstDay, if_neg (by simp [hpd]), ih hl]

/-- C8: for every calendar date, the recalculated aggregate's `commits` field
equals the number of raw activity rows with that date and type `"commit"`, and
recalculating a second time from the same raw rows leaves the aggregate store
exactly as it was — the recomputation is a pure function of the raw rows,
written as a full replace of that date's row. -/
theorem daily_aggregate_recalc (activities : List Activity) (date : String)
    (dayStore : List DayAggregate) :
    (computeDayData activities date).commits =
      (activities.filter
        (fun a => a.type == "commit" && a.date == date)).length ∧
    recalculateDay activities date (recalculateDay activities date dayStore) =
      recalculateDay activities date dayStore := by
  constructor
  · show ((activities.filter (fun a => a.date == date)).filter
        (fun a => a.type == "commit")).length = _
    rw [List.filter_filter]
  · have hdata : ((computeDayData activities date).date == date) = true := by
      simp [computeDayData]
    by_cases hf : (dayStore.find? (fun d => d.date == date)).isSome
    · have hinner : recalculateDay activities date dayStore =
          patchFirstDay dayStore date (computeDayData activities date) := by
        simp only [recalculateDay]
        rw [if_pos hf]
      rw [hinner]
      simp only [recalculateDay]
      rw [if_pos (find?_patchFirstDay_isSome date _ hdata dayStore hf),
        patchFirstDay_idem date _ hdata]
    · have hnone : dayStore.find? (fun d => d.date == date) = none :=
        Option.not_isSome_iff_eq_none.mp hf
      have hinner : recalculateDay activities date dayStore =
          dayStore ++ [computeDayData activities date] := by
        simp only [recalculateDay]
        rw [if_neg hf]
      have hsome : ((dayStore ++ [computeDayData activities date]).find?
          (fun d => d.date == date)).isSome := by
        rw [find?_append_none hnone]
        simp [List.find?, hdata]
      rw [hinner]
      simp only [recalculateDay]
      rw [if_pos hsome,
        patchFirstDay_append_no_match date _ hdata dayStore hnone]

/-! ## Claim C9: blog-draft status transitions
Embedded from `updateStatus` in `src/convex/blogDrafts.ts`; the SQL PATCH
endpoint in `src/api/src/server.ts` behaves identically on the status column
and preserves `published_at` via `COALESCE` on non-published sets. -/

/-- A `blog_drafts` row. -/
structure BlogDraft where
  weekStart : String
  weekEnd : String
  content : String
  status : String
  createdAt : Int
  publishedAt : Option Int
deriving DecidableEq, Repr

/-- The `updateStatus` mutation: find the draft by week and patch its status
to the requested value, spreading in `publishedAt := Date.now()` exactly when
the new status is `"published"`. -/
def updateStatus (store : List BlogDraft) (weekStart status : String)
    (now : Int) : List BlogDraft :=
  match store with
  | [] => []
  | d :: rest =>
    if d.weekStart == weekStart then
      { d with
          status := status
          publishedAt :=
            if status == "published" then some now else d.publishedAt } :: rest
    else
      d :: updateStatus rest weekStart status now

/-- The spec's intended state-machine order:
`pending_review` → `reviewed` → `published`. -/
def statusRank (s : String) : Nat :=
  if s = "pending_review" then 0
  else if s = "reviewed" then 1
  else if s = "published" then 2
  else 0

/-- Example blog draft, already published. -/
def exDraft : BlogDraft :=
  { weekStart := "2025-09-29"
    weekEnd := "2025-10-05"
    content := "weekly notes"
    status := "published"
    createdAt := 100
    publishedAt := some 150 }

/-- C9 counterexample: the status-set operation performs a backward
transition — setting a published draft's status to `"pending_review"`
succeeds and strictly lowers the status rank; no forward-only guard exists in
the code. -/
theorem blog_status_backward_move :
    (updateStatus [exDraft] "2025-09-29" "pending_review" 200).map
        BlogDraft.status = ["pending_review"] ∧
    statusRank "pending_review" < statusRank "published" := by
  constructor
  · rfl
  · decide

/-- C9 (amended): the status-set operation sets the first matching draft's
status to whatever value is requested — the code enforces no forward-only
order, so backward moves are possible — and its only side effect is stamping
`publishedAt` with the current time exactly when the requested status is
`"published"` (otherwise `publishedAt` is unchanged); all other drafts are
untouched, and a missing week key is a no-op. -/
theorem blog_status_set (store : List BlogDraft) (ws st : String)
    (now : Int) :
    (store.find? (fun d => d.weekStart == ws) = none →
      updateStatus store ws st now = store) ∧
    (∀ d0, store.find? (fun d => d.weekStart == ws) = some d0 →
      ∃ pre post, store = pre ++ d0 :: post ∧
        (∀ d ∈ pre, (d.weekStart == ws) = false) ∧
        updateStatus store ws st now =
          pre ++ { d0 with
              status := st
              publishedAt :=
                if st == "published" then some now
                else d0.publishedAt } :: post) := by
  induction store with
  | nil =>
    exact ⟨fun _ => rfl, fun d0 h => by simp [List.find?] at h⟩
  | cons d rest ih =>
    constructor
    · intro hnone
      rw [List.find?] at hnone
      cases hd : (d.weekStart == ws) with
      | true =>
        rw [hd] at hnone
        exact absurd hnone (by simp)
      | false =>
        rw [hd] at hnone
        rw [updateStatus, if_neg (by simp [hd]), ih.1 hnone]
    · intro d0 h0
      rw [List.find?] at h0
      cases hd : (d.weekStart == ws) with
      | true =>
        rw [hd] at h0
        have hd0 : d = d0 := by
          simpa using h0
        subst hd0
        refine ⟨[], rest, rfl, by simp, ?_⟩
        rw [updateStatus, if_pos hd]
        rfl
      | false =>
        rw [hd] at h0
        obtain ⟨pre, post, hsplit, hpre, hupd⟩ := ih.2 d0 h0
        refine ⟨d :: pre, post, by rw [List.cons_append, hsplit], ?_, ?_⟩
        · intro x hx
          rcases List.mem_cons.mp hx with hx | hx
          · subst hx
            exact hd
          · exact hpre x hx
        · rw [updateStatus, if_neg (by simp [hd]), hupd, List.cons_append]

/-- C9 witness: setting the published `exDraft` back to `"reviewed"` at a
concrete input — the theorem's characterization instantiated. -/
theorem blog_status_set_witness :
    ([exDraft].find? (fun d => d.weekStart == "2025-09-29") = some exDraft) ∧
    (∃ pre post, [exDraft] = pre ++ exDraft :: post ∧
      (∀ d ∈ pre, (d.weekStart == "2025-09-29") = false) ∧
      updateStatus [exDraft] "2025-09-29" "reviewed" 300 =
        pre ++ { exDraft with
            status := "reviewed"
            publishedAt :=
              if ("reviewed" : String) == "published" then some 300
              else exDraft.publishedAt } :: post) :=
  ⟨by decide,
    (blog_status_set [exDraft] "2025-09-29" "reviewed" 300).2 exDraft
      (by decide)⟩

/-! ## Claim C5: semantic search (over-fetch, filter, truncate)
Embedded from `POST /api/bookmarks/semantic` in `src/api/src/server.ts`
(lines 252–300); `POST /api/stars/semantic` is the same pipeline over the
starred-repo tables. -/

/-- A stored vector row joined with its metadata: `rowid` is the vector-table
rowid, `authorHandle` a representative structured-filter column, and `dist`
the cosine distance of the stored vector to the (implicit) query vector. -/
structure BRow where
  rowid : Nat
  authorHandle : String
  dist : ℚ
deriving DecidableEq, Repr

/-- Ascending-distance order on rows. -/
def distLe (a b : BRow) : Prop := a.dist ≤ b.dist

instance : DecidableRel distLe :=
  fun a b => inferInstanceAs (Decidable (a.dist ≤ b.dist))

instance : IsTotal BRow distLe := ⟨fun a b => le_total a.dist b.dist⟩

instance : IsTrans BRow distLe := ⟨fun _ _ _ h1 h2 => le_trans h1 h2⟩

/-- `SELECT rowid, distance FROM bookmark_embeddings WHERE embedding MATCH ?
ORDER BY distance LIMIT n`: the `n` nearest stored vectors by ascending
cosine distance. -/
def vecQuery (store : List BRow) (n : Nat) : List BRow :=
  (List.insertionSort distLe store).take n

/-- `POST /api/bookmarks/semantic`: over-fetch the `limit * 2` nearest
vectors, join to metadata rows in storage order applying the structured
filter, re-attach distances, sort ascending, truncate to `limit`, and return
each row with score `1 - distance`. -/
def semanticSearch (store : List BRow) (pred : BRow → Bool) (limit : Nat) :
    List (BRow × ℚ) :=
  let vecResults := vecQuery store (limit * 2)
  let rows := store.filter
    (fun r => (vecResults.map BRow.rowid).contains r.rowid && pred r)
  let results := (List.insertionSort distLe rows).take limit
  results.map (fun r => (r, 1 - r.dist))

/-- C5: with pairwise-distinct vector rowids, semantic search retrieves the
`2·limit` nearest stored vectors by ascending distance, applies the
structured filter to that candidate set only, and returns the survivors
truncated to `limit` in ascending-distance order with score `1 - distance`:
the result length is `min limit k` for `k` surviving candidates (so `k`
results when `k < limit` — never backfilled from outside the filter), every
result is a surviving candidate, and when `k ≤ limit` the result is exactly
the survivors (as a permutation). -/
theorem semantic_overfetch_filter (store : List BRow) (pred : BRow → Bool)
    (limit : Nat) (hnd : (store.map BRow.rowid).Nodup) :
    (semanticSearch store pred limit).length =
      min limit ((vecQuery store (limit * 2)).filter pred).length ∧
    (∀ p ∈ semanticSearch store pred limit,
      p.1 ∈ (vecQuery store (limit * 2)).filter pred ∧
      p.2 = 1 - p.1.dist) ∧
    List.Sorted distLe ((semanticSearch store pred limit).map Prod.fst) ∧
    (((vecQuery store (limit * 2)).filter pred).length ≤ limit →
      ((semanticSearch store pred limit).map Prod.fst).Perm
        ((vecQuery store (limit * 2)).filter pred)) := by
  have hstore_nd : store.Nodup := hnd.of_map
  have hsort_perm := List.perm_insertionSort distLe store
  have hsort_nd : (List.insertionSort distLe store).Nodup :=
    hsort_perm.symm.nodup hstore_nd
  have hcand_sub : (vecQuery store (limit * 2)).Sublist
      (List.insertionSort distLe store) := List.take_sublist _ _
  have hcand_nd : (vecQuery store (limit * 2)).Nodup :=
    List.Nodup.sublist hcand_sub hsort_nd
  have hcand_mem : ∀ r ∈ vecQuery store (limit * 2), r ∈ store :=
    fun r hr => hsort_perm.mem_iff.mp (hcand_sub.subset hr)
  have hmem : ∀ r, (r ∈ store.filter (fun r =>
      ((vecQuery store (limit * 2)).map BRow.rowid).contains r.rowid &&
        pred r)) ↔
      r ∈ (vecQuery store (limit * 2)).filter pred := by
    intro r
    rw [List.mem_filter, List.mem_filter]
    constructor
    · rintro ⟨hrstore, hq⟩
      rw [Bool.and_eq_true] at hq
      obtain ⟨hcont, hpred⟩ := hq
      have hrm : r.rowid ∈ (vecQuery store (limit * 2)).map BRow.rowid := by
        simpa using hcont
      obtain ⟨c, hc_mem, hc_eq⟩ := List.mem_map.mp hrm
      have hc_store : c ∈ store := hcand_mem c hc_mem
      have hcr : c = r :=
        List.inj_on_of_nodup_map hnd hc_store hrstore hc_eq
      exact ⟨hcr ▸ hc_mem, hpred⟩
    · rintro ⟨hrc, hpred⟩
      refine ⟨hcand_mem r hrc, ?_⟩
      rw [Bool.and_eq_true]
      refine ⟨?_, hpred⟩
      simpa using List.mem_map_of_mem BRow.rowid hrc
  have hrows_nd : (store.filter (fun r =>
      ((vecQuery store (limit * 2)).map BRow.rowid).contains r.rowid &&
        pred r)).Nodup := hstore_nd.filter _
  have hsurv_nd : ((vecQuery store (limit * 2)).filter pred).Nodup :=
    hcand_nd.filter _
  have hperm : (store.filter (fun r =>
      ((vecQuery store (limit * 2)).map BRow.rowid).contains r.rowid &&
        pred r)).Perm ((vecQuery store (limit * 2)).filter pred) :=
    (List.perm_ext_iff_of_nodup hrows_nd hsurv_nd).mpr hmem
  have hunfold : semanticSearch store pred limit =
      ((List.insertionSort distLe (store.filter (fun r =>
        ((vecQuery store (limit * 2)).map BRow.rowid).contains r.rowid &&
          pred r))).take limit).map (fun r => (r, 1 - r.dist)) := rfl
  have hsp := List.perm_insertionSort distLe (store.filter (fun r =>
    ((vecQuery store (limit * 2)).map BRow.rowid).contains r.rowid && pred r))
  have hfst : (semanticSearch store pred limit).map Prod.fst =
      (List.insertionSort distLe (store.filter (fun r =>
        ((vecQuery store (limit * 2)).map BRow.rowid).contains r.rowid &&
          pred r))).take limit := by
    rw [hunfold, List.map_map]
    exact List.map_id _
  refine ⟨?_, ?_, ?_, ?_⟩
  · rw [hunfold, List.length_map, List.length_take,
      List.length_insertionSort, hperm.length_eq]
  · intro p hp
    rw [hunfold] at hp
    obtain ⟨r, hr, hrp⟩ := List.mem_map.mp hp
    have hr1 : r ∈ List.insertionSort distLe (store.filter (fun r =>
        ((vecQuery store (limit * 2)).map BRow.rowid).contains r.rowid &&
          pred r)) := (List.take_sublist _ _).subset hr
    have hr2 := hperm.mem_iff.mp (hsp.mem_iff.mp hr1)
    subst hrp
    exact ⟨hr2, rfl⟩
  · rw [hfst]
    exact List.Pairwise.sublist (List.take_sublist _ _)
      (List.sorted_insertionSort distLe _)
  · intro hk
    rw [hfst, List.take_of_length_le]
    · exact hsp.trans hperm
    · rw [List.length_insertionSort, hperm.length_eq]
      exact hk

/-- Concrete vector store for the C5 witness: three rows, distances 0 < 1 < 2,
authors alice/bob/alice. -/
def exStoreC5 : List BRow :=
  [{ rowid := 1, authorHandle := "alice", dist := 0 },
   { rowid := 2, authorHandle := "bob", dist := 1 },
   { rowid := 3, authorHandle := "alice", dist := 2 }]

/-- The structured filter of the C5 witness (`LOWER(author_handle) = ?`). -/
def exPredC5 (r : BRow) : Bool := r.authorHandle == "alice"

/-- C5 witness: limit 1 fetches the 2 nearest rows (rowids 1 and 2), the
author filter leaves only rowid 1, and the single result carries score
`1 - 0`. -/
theorem semantic_overfetch_filter_witness :
    ((exStoreC5.map BRow.rowid).Nodup) ∧
    ((semanticSearch exStoreC5 exPredC5 1).length =
      min 1 ((vecQuery exStoreC5 (1 * 2)).filter exPredC5).length ∧
    (∀ p ∈ semanticSearch exStoreC5 exPredC5 1,
      p.1 ∈ (vecQuery exStoreC5 (1 * 2)).filter exPredC5 ∧
      p.2 = 1 - p.1.dist) ∧
    List.Sorted distLe ((semanticSearch exStoreC5 exPredC5 1).map Prod.fst) ∧
    (((vecQuery exStoreC5 (1 * 2)).filter exPredC5).length ≤ 1 →
      ((semanticSearch exStoreC5 exPredC5 1).map Prod.fst).Perm
        ((vecQuery exStoreC5 (1 * 2)).filter exPredC5))) :=
  ⟨by decide, semantic_overfetch_filter exStoreC5 exPredC5 1 (by decide)⟩

/-! ## Claim C6: embedding backfill selection
Embedded from the pending-entity queries of the two backfill entry points:
`main` in `src/ingestion/scripts/github-stars-embed.ts` (starred repos,
`ORDER BY sr.starred_at DESC LIMIT ?`) and `main` in `src/unnamed/part_017`
(bookmarks, `LIMIT ?` with no ORDER BY). -/

/-- A `starred_repos` row (selection-relevant columns). -/
structure StarredRepo where
  id : String
  fullName : String
  starredAt : Int
deriving DecidableEq, Repr

/-- `ORDER BY starred_at DESC`: most recently starred first. -/
def starRecency (a b : StarredRepo) : Prop := b.starredAt ≤ a.starredAt

instance : DecidableRel starRecency :=
  fun a b => inferInstanceAs (Decidable (b.starredAt ≤ a.starredAt))

instance : IsTotal StarredRepo starRecency :=
  ⟨fun a b => le_total b.starredAt a.starredAt⟩

instance : IsTrans StarredRepo starRecency :=
  ⟨fun _ _ _ h1 h2 => le_trans h2 h1⟩

/-- Recency order on bookmarks (most recent timestamp first) — what the spec
asserts the bookmark backfill uses. -/
def bookmarkRecency (a b : Bookmark) : Prop := b.timestamp ≤ a.timestamp

instance : DecidableRel bookmarkRecency :=
  fun a b => inferInstanceAs (Decidable (b.timestamp ≤ a.timestamp))

/-- The starred-repo backfill selection: `SELECT sr.* FROM starred_repos sr
LEFT JOIN star_embedding_map sem ON sr.id = sem.repo_id WHERE sem.repo_id IS
NULL ORDER BY sr.starred_at DESC LIMIT maxRepos`.  `mapped` is the set of
repo ids having a mapping row. -/
def starBackfillSelect (repos : List StarredRepo) (mapped : List String)
    (maxRepos : Nat) : List StarredRepo :=
  (List.insertionSort starRecency
    (repos.filter (fun r => !(mapped.contains r.id)))).take maxRepos

/-- The bookmark backfill selection: `SELECT b.id, b.post_url, b.tweet_text
FROM bookmarks b LEFT JOIN bookmark_embedding_map m ON b.id = m.bookmark_id
WHERE m.bookmark_id IS NULL LIMIT batchSize` — with no ORDER BY clause. -/
def bookmarkBackfillSelect (bs : List Bookmark) (mapped : List Nat)
    (batchSize : Nat) : List Bookmark :=
  (bs.filter (fun b => !(mapped.contains b.id))).take batchSize

/-- Older pending bookmark sitting earlier in storage order. -/
def exOldBookmark : Bookmark :=
  { id := 1
    postUrl := "https://x.com/p/old"
    authorName := "ann"
    authorHandle := "ann_h"
    tweetText := "old tweet"
    timestamp := 10
    batchFile := "f0.json"
    source := "bookmark" }

/-- Newer pending bookmark sitting later in storage order. -/
def exNewBookmark : Bookmark :=
  { id := 2
    postUrl := "https://x.com/p/new"
    authorName := "ann"
    authorHandle := "ann_h"
    tweetText := "new tweet"
    timestamp := 99
    batchFile := "f0.json"
    source := "bookmark" }

/-- C6 counterexample: the bookmark backfill query has no ORDER BY — with two
pending bookmarks in storage order (older first), a one-item invocation
selects the older one, not the most recent: the selection differs from the
recency-ordered (most-recent-first) prefix the claim describes. -/
theorem bookmark_backfill_unordered :
    bookmarkBackfillSelect [exOldBookmark, exNewBookmark] [] 1 =
      [exOldBookmark] ∧
    exOldBookmark.timestamp < exNewBookmark.timestamp ∧
    bookmarkBackfillSelect [exOldBookmark, exNewBookmark] [] 1 ≠
      (List.insertionSort bookmarkRecency
        (([exOldBookmark, exNewBookmark]).filter
          (fun b => !(([] : List Nat).contains b.id)))).take 1 := by
  refine ⟨rfl, by decide, by decide⟩

/-- C6 (amended): the starred-repo backfill selects up to the per-invocation
maximum pending repos (those with no embedding-mapping row) ordered by
`starred_at` descending — most recent first; the bookmark backfill selects up
to `batchSize` pending bookmarks in storage order, with no recency ordering.
Both select pending entities only, `min(cap, pendingCount)` of them. -/
theorem backfill_selection (repos : List StarredRepo) (mappedR : List String)
    (maxRepos : Nat) (bs : List Bookmark) (mappedB : List Nat)
    (batchSize : Nat) :
    ((starBackfillSelect repos mappedR maxRepos).length =
      min maxRepos
        (repos.filter (fun r => !(mappedR.contains r.id))).length) ∧
    List.Sorted starRecency (starBackfillSelect repos mappedR maxRepos) ∧
    (∀ r ∈ starBackfillSelect repos mappedR maxRepos,
      r ∈ repos ∧ (mappedR.contains r.id) = false) ∧
    ((bookmarkBackfillSelect bs mappedB batchSize).length =
      min batchSize
        (bs.filter (fun b => !(mappedB.contains b.id))).length) ∧
    (∀ b ∈ bookmarkBackfillSelect bs mappedB batchSize,
      b ∈ bs ∧ (mappedB.contains b.id) = false) ∧
    (bookmarkBackfillSelect bs mappedB batchSize).Sublist bs := by
  refine ⟨?_, ?_, ?_, ?_, ?_, ?_⟩
  · rw [starBackfillSelect, List.length_take, List.length_insertionSort]
  · exact List.Pairwise.sublist (List.take_sublist _ _)
      (List.sorted_insertionSort starRecency _)
  · intro r hr
    have hr1 : r ∈ List.insertionSort starRecency
        (repos.filter (fun r => !(mappedR.contains r.id))) :=
      (List.take_sublist _ _).subset hr
    have hr2 := (List.mem_insertionSort starRecency).mp hr1
    rw [List.mem_filter] at hr2
    obtain ⟨hmem, hp⟩ := hr2
    refine ⟨hmem, ?_⟩
    simpa using hp
  · rw [bookmarkBackfillSelect, List.length_take]
  · intro b hb
    have hb1 : b ∈ bs.filter (fun b => !(mappedB.contains b.id)) :=
      (List.take_sublist _ _).subset hb
    rw [List.mem_filter] at hb1
    obtain ⟨hmem, hp⟩ := hb1
    refine ⟨hmem, ?_⟩
    simpa using hp
  · exact (List.take_sublist _ _).trans (List.filter_sublist _)

end AgentReflection
